import Mathlib

/-! ptsim: a page-table simulator over a 16 KiB arena

Shallow embedding of `ptsim.c`.  The global array `unsigned char mem[MEM_SIZE]`
becomes an explicit state `Mem` that every operation takes and returns; text
written by `printf`/`putchar` is returned as a `String` next to the new state.

An arena is a function from byte index to byte value.  Only the indices below
`MEM_SIZE` belong to the C array; the operations below are stated for inputs on
which the C program stays inside the array.  `int` arguments that the program
only uses as non-negative quantities (process numbers, page counts, virtual
addresses) are natural numbers; the value stored by `store_value` is an `Int`,
narrowed to `unsigned char` by the assignment.
-/

namespace Ptsim

/-! ## Constants (`ptsim.c` lines 6-9) -/

def MEM_SIZE : Nat := 16384
def PAGE_SIZE : Nat := 256
def PAGE_COUNT : Nat := 64
def PAGE_SHIFT : Nat := 8

/-- Simulated RAM: `mem[i]` is `mem i`. -/
abbrev Mem := Nat → Nat

/-- The assignment `mem[addr] = val`. -/
def write (mem : Mem) (addr val : Nat) : Mem :=
  fun j => if j = addr then val else mem j

/-- Convert a page, offset into an address: `(page << PAGE_SHIFT) | offset`. -/
def get_address (page offset : Nat) : Nat :=
  (page <<< PAGE_SHIFT) ||| offset

/-- Initialize RAM: `memset(mem, 0, MEM_SIZE); mem[0] = 1;`. -/
def initialize_mem : Mem :=
  write (fun _ => 0) 0 1

/-- The loop of `get_page`, entered at index `i` with `k` iterations left
(`i + k = 64` on the call from `get_page`). -/
def get_page_loop (mem : Mem) : Nat → Nat → Nat × Mem
  | _, 0 => (0xff, mem)
  | i, k + 1 =>
    if mem i = 0 then (i, write mem i 1)
    else get_page_loop mem (i + 1) k

/-- Allocate a physical page: the page number, or `0xff` if none is available. -/
def get_page (mem : Mem) : Nat × Mem :=
  get_page_loop mem 1 63

/-- The text `printf("OOM: proc %d: page table\n", proc_num)` writes. -/
def oom_notice (proc_num : Nat) : String :=
  "OOM: proc " ++ toString proc_num ++ ": page table\n"

/-- The data-page loop of `new_process`, at index `i` with `k` iterations left. -/
def new_process_loop (proc_num page_table : Nat) : Mem → Nat → Nat → Mem × String
  | mem, _, 0 => (mem, "")
  | mem, i, k + 1 =>
    let r := get_page mem
    if r.1 = 0xff then (r.2, oom_notice proc_num)
    else new_process_loop proc_num page_table
      (write r.2 (get_address page_table i) r.1) (i + 1) k

/-- Allocate pages for a new process: its page table and `page_count` data pages. -/
def new_process (mem : Mem) (proc_num page_count : Nat) : Mem × String :=
  let r := get_page mem
  if r.1 = 0xff then (r.2, oom_notice proc_num)
  else new_process_loop proc_num r.1
    (write r.2 (PAGE_COUNT + proc_num) r.1) 0 page_count

/-- Get the page table for a given process. -/
def get_page_table (mem : Mem) (proc_num : Nat) : Nat :=
  mem (proc_num + PAGE_COUNT)

/-- The function `dealloc_page`: `mem[proc_num] = 0`. -/
def dealloc_page (mem : Mem) (proc_num : Nat) : Mem :=
  write mem proc_num 0

/-- The loop of `kill_process`, at index `i` with `k` iterations left. -/
def kill_process_loop (page_table : Nat) : Mem → Nat → Nat → Mem
  | mem, _, 0 => mem
  | mem, i, k + 1 =>
    let page_addr := get_address page_table i
    if mem page_addr ≠ 0 then
      kill_process_loop page_table
        (write (dealloc_page mem (mem page_addr)) page_addr 0) (i + 1) k
    else kill_process_loop page_table mem (i + 1) k

/-- Free every page named by the process's page table, then the table itself. -/
def kill_process (mem : Mem) (proc_num : Nat) : Mem :=
  let page_table := get_page_table mem proc_num
  dealloc_page (kill_process_loop page_table mem 0 PAGE_SIZE) page_table

/-- Translate a virtual address of a process into a physical address. -/
def get_phys_addr (mem : Mem) (proc_num virtual_addr : Nat) : Nat :=
  let virtual_page := virtual_addr >>> 8
  let offset := virtual_addr &&& 255
  let process_pt_addr := get_address (get_page_table mem proc_num) virtual_page
  let phys_page := mem process_pt_addr
  get_address phys_page offset

/-- The conversion of an `int` to `unsigned char`. -/
def to_uchar (value : Int) : Nat :=
  (value % 256).toNat

/-- Store a byte: `mem[phys_addr] = value`, then the report line. -/
def store_value (mem : Mem) (proc_num virtual_addr : Nat) (value : Int) : Mem × String :=
  let phys_addr := get_phys_addr mem proc_num virtual_addr
  (write mem phys_addr (to_uchar value),
   "Store proc " ++ toString proc_num ++ ": " ++ toString virtual_addr ++ " => "
     ++ toString phys_addr ++ ", value=" ++ toString value ++ "\n")

/-- Load a byte and produce the report line. -/
def load_value (mem : Mem) (proc_num virtual_addr : Nat) : String :=
  let phys_addr := get_phys_addr mem proc_num virtual_addr
  let value := mem phys_addr
  "Load proc " ++ toString proc_num ++ ": " ++ toString virtual_addr ++ " => "
    ++ toString phys_addr ++ ", value=" ++ toString value ++ "\n"

/-- The loop of `print_page_free_map`, at index `i` with `k` iterations left. -/
def print_page_free_map_loop (mem : Mem) : Nat → Nat → String
  | _, 0 => ""
  | i, k + 1 =>
    let addr := get_address 0 i
    let glyph := if mem addr = 0 then "." else "#"
    let nl := if (i + 1) % 16 = 0 then "\n" else ""
    glyph ++ nl ++ print_page_free_map_loop mem (i + 1) k

/-- Print the free page map. -/
def print_page_free_map (mem : Mem) : String :=
  "--- PAGE FREE MAP ---\n" ++ print_page_free_map_loop mem 0 64

/-- The conversion `%02x`: lower-case hexadecimal, zero-padded to two digits. -/
def hex02 (n : Nat) : String :=
  String.mk (List.replicate (2 - (Nat.toDigits 16 n).length) '0' ++ Nat.toDigits 16 n)

/-- The loop of `print_page_table`, at index `i` with `k` iterations left. -/
def print_page_table_loop (mem : Mem) (page_table : Nat) : Nat → Nat → String
  | _, 0 => ""
  | i, k + 1 =>
    let addr := get_address page_table i
    let page := mem addr
    (if page ≠ 0 then hex02 i ++ " -> " ++ hex02 page ++ "\n" else "")
      ++ print_page_table_loop mem page_table (i + 1) k

/-- Print the address map from virtual pages to physical. -/
def print_page_table (mem : Mem) (proc_num : Nat) : String :=
  "--- PROCESS " ++ toString proc_num ++ " PAGE TABLE ---\n"
    ++ print_page_table_loop mem (get_page_table mem proc_num) 0 PAGE_COUNT

/-- A command of the command line, with its arguments already read by `atoi`. -/
inductive Cmd where
  | np (proc_num pages : Nat)
  | pfm
  | ppt (proc_num : Nat)
  | kp (proc_num : Nat)
  | sb (proc_num virtual_addr : Nat) (value : Int)
  | lb (proc_num virtual_addr : Nat)

/-- One turn of the dispatch in `main`: the new arena and the text printed. -/
def exec (mem : Mem) : Cmd → Mem × String
  | Cmd.np proc_num pages => new_process mem proc_num pages
  | Cmd.pfm => (mem, print_page_free_map mem)
  | Cmd.ppt proc_num => (mem, print_page_table mem proc_num)
  | Cmd.kp proc_num => (kill_process mem proc_num, "")
  | Cmd.sb proc_num virtual_addr value => store_value mem proc_num virtual_addr value
  | Cmd.lb proc_num virtual_addr => (mem, load_value mem proc_num virtual_addr)

/-- The command loop of `main`, from a given arena. -/
def run (mem : Mem) : List Cmd → Mem × String
  | [] => (mem, "")
  | c :: cs => ((run (exec mem c).1 cs).1, (exec mem c).2 ++ (run (exec mem c).1 cs).2)

/-! ## Specification vocabulary -/

/-- The free pages among `1..63`, in ascending order. -/
def free_pages (mem : Mem) : List Nat :=
  (List.range' 1 63).filter (fun i => mem i = 0)

/-- The processes created and not yet killed, after one more command. -/
def live_after (live : List Nat) : Cmd → List Nat
  | Cmd.np proc_num _ => proc_num :: live
  | Cmd.kp proc_num => live.filter (fun q => q ≠ proc_num)
  | _ => live

/-- The processes created and not yet killed, after a list of commands. -/
def live_run (live : List Nat) : List Cmd → List Nat
  | [] => live
  | c :: cs => live_run (live_after live c) cs

/-- A valid command: `np` of an id below 64 that is not live, with enough free
pages; `kp` of a live id; `sb`/`lb` of a live process at a virtual address
whose page-table entry is nonzero; the two reports are always valid. -/
def cmd_valid (mem : Mem) (live : List Nat) : Cmd → Bool
  | Cmd.np proc_num pages =>
    decide (proc_num < 64) && !(live.contains proc_num)
      && decide (pages + 1 ≤ (free_pages mem).length)
  | Cmd.pfm => true
  | Cmd.ppt _ => true
  | Cmd.kp proc_num => live.contains proc_num
  | Cmd.sb proc_num virtual_addr _ =>
    live.contains proc_num && decide (virtual_addr < 65536)
      && decide (mem (get_address (get_page_table mem proc_num) (virtual_addr >>> 8)) ≠ 0)
  | Cmd.lb proc_num virtual_addr =>
    live.contains proc_num && decide (virtual_addr < 65536)
      && decide (mem (get_address (get_page_table mem proc_num) (virtual_addr >>> 8)) ≠ 0)

/-- Every command of the list is valid in the state in which it is issued. -/
def cmds_valid (mem : Mem) (live : List Nat) : List Cmd → Bool
  | [] => true
  | c :: cs => cmd_valid mem live c && cmds_valid (exec mem c).1 (live_after live c) cs

/-- Page `k` is the registered page table of a live process, or the value of
one of the 256 entries of a live process's page table. -/
def page_referenced (mem : Mem) (live : List Nat) (k : Nat) : Prop :=
  ∃ p, p ∈ live ∧
    (mem (PAGE_COUNT + p) = k ∨ ∃ i, i < PAGE_SIZE ∧ mem (mem (PAGE_COUNT + p) * 256 + i) = k)

/-- The arena after `np 0 62` on a fresh arena: pages 1..63 are all in use. -/
def exhausted_mem : Mem :=
  (new_process initialize_mem 0 62).1

/-- A command line that leaves a stale byte in a recycled data page: process 0
stores the value 1 in its data page (page 2) and is killed; process 1 then
takes page 1 as its page table, so page 2 is the lowest free page. -/
def stale_cmds : List Cmd :=
  [Cmd.np 0 1, Cmd.sb 0 0 1, Cmd.kp 0, Cmd.np 1 0]

/-- The arena after `stale_cmds`. -/
def stale_mem : Mem :=
  (run initialize_mem stale_cmds).1

/-- A command line after which a page table holds an entry that is not a page
number: the byte 200 stored in data page 2 is still there when page 2 becomes
the page table of process 2. -/
def wild_entry_cmds : List Cmd :=
  [Cmd.np 0 1, Cmd.sb 0 0 200, Cmd.kp 0, Cmd.np 1 0, Cmd.np 2 0]

/-- The arena after `wild_entry_cmds`. -/
def wild_entry_mem : Mem :=
  (run initialize_mem wild_entry_cmds).1

/-- The report lines `%02x -> %02x` of page table `t` for the virtual pages of
a list, in the order of the list. -/
def page_table_lines (mem : Mem) (t : Nat) : List Nat → String
  | [] => ""
  | i :: rest =>
    (hex02 i ++ " -> " ++ hex02 (mem (t * 256 + i)) ++ "\n") ++ page_table_lines mem t rest

/-- A command line after which two live processes map the same physical page:
the byte 5 stored at offset 1 of data page 2 is still there when page 2
becomes the page table of process 2, and page 5 is then granted to process 3. -/
def shared_page_cmds : List Cmd :=
  [Cmd.np 0 1, Cmd.sb 0 1 5, Cmd.kp 0, Cmd.np 1 0, Cmd.np 2 1, Cmd.np 3 1]

/-- The arena after `shared_page_cmds`. -/
def shared_page_mem : Mem :=
  (run initialize_mem shared_page_cmds).1

/-- A command that stores no byte of value 64 or more. -/
def small_store : Cmd → Bool
  | Cmd.sb _ _ value => decide (to_uchar value < 64)
  | _ => true

/-- Every byte outside page 0 is below 64, and the directory byte of every
live process is a page number in `[1, 64)`. -/
def dir_inv (mem : Mem) (live : List Nat) : Prop :=
  (∀ j, 256 ≤ j → mem j < 64) ∧
  (∀ q, q ∈ live → q < 64 ∧ 1 ≤ mem (64 + q) ∧ mem (64 + q) < 64)

/-! ## Basic facts -/

theorem write_same (mem : Mem) (a v : Nat) : write mem a v a = v := by
  simp [write]

theorem write_other (mem : Mem) (a v j : Nat) (h : j ≠ a) : write mem a v j = mem j := by
  simp [write, h]

theorem get_address_eq (page offset : Nat) (h : offset < 256) :
    get_address page offset = page * 256 + offset := by
  unfold get_address PAGE_SHIFT
  rw [Nat.shiftLeft_eq, Nat.mul_comm]
  exact (Nat.mul_add_lt_is_or (i := 8) h page).symm

theorem shr8_eq (a : Nat) : a >>> 8 = a / 256 := by
  rw [Nat.shiftRight_eq_div_pow]

theorem and255_eq (a : Nat) : a &&& 255 = a % 256 :=
  Nat.and_pow_two_sub_one_eq_mod a 8

/-! ## The allocator -/

theorem get_page_loop_nil (mem : Mem) :
    ∀ (k i : Nat), (List.range' i k).filter (fun j => mem j = 0) = [] →
      get_page_loop mem i k = (0xff, mem) := by
  intro k
  induction k with
  | zero => intro i _; rfl
  | succ k ih =>
    intro i h
    rw [List.range'_succ, List.filter_cons] at h
    by_cases hi : mem i = 0
    · simp [hi] at h
    · simp only [hi, decide_False, Bool.false_eq_true, if_false] at h
      simp only [get_page_loop, hi, if_false]
      exact ih (i + 1) h

theorem get_page_loop_cons (mem : Mem) (t : Nat) (rest : List Nat) :
    ∀ (k i : Nat), (List.range' i k).filter (fun j => mem j = 0) = t :: rest →
      get_page_loop mem i k = (t, write mem t 1) := by
  intro k
  induction k with
  | zero => intro i h; simp at h
  | succ k ih =>
    intro i h
    rw [List.range'_succ, List.filter_cons] at h
    by_cases hi : mem i = 0
    · simp only [hi, decide_True, if_true, List.cons.injEq] at h
      simp only [get_page_loop, hi, if_true]
      rw [h.1]
    · simp only [hi, decide_False, Bool.false_eq_true, if_false] at h
      simp only [get_page_loop, hi, if_false]
      exact ih (i + 1) h

theorem mem_free_pages (mem : Mem) (x : Nat) :
    x ∈ free_pages mem ↔ 1 ≤ x ∧ x < 64 ∧ mem x = 0 := by
  simp only [free_pages, List.mem_filter, List.mem_range'_1, decide_eq_true_eq]
  omega

theorem free_pages_sorted (mem : Mem) : (free_pages mem).Pairwise (· < ·) :=
  List.Pairwise.sublist (List.filter_sublist _) (List.pairwise_lt_range' 1 63)

theorem free_pages_nodup (mem : Mem) : (free_pages mem).Nodup :=
  (free_pages_sorted mem).imp (fun h => Nat.ne_of_lt h)

theorem free_pages_length_le (mem : Mem) : (free_pages mem).length ≤ 63 := by
  have h := List.length_filter_le (fun i => decide (mem i = 0)) (List.range' 1 63)
  simpa [free_pages] using h

theorem get_page_nil (mem : Mem) (h : free_pages mem = []) :
    get_page mem = (0xff, mem) :=
  get_page_loop_nil mem 63 1 h

theorem get_page_cons (mem : Mem) (t : Nat) (rest : List Nat)
    (h : free_pages mem = t :: rest) : get_page mem = (t, write mem t 1) :=
  get_page_loop_cons mem t rest 63 1 h

theorem filter_write_used (mem : Mem) (t : Nat) :
    ∀ (l : List Nat) (rest : List Nat), l.Nodup →
      l.filter (fun j => mem j = 0) = t :: rest →
      l.filter (fun j => write mem t 1 j = 0) = rest := by
  intro l
  induction l with
  | nil => intro rest _ h; simp at h
  | cons a l ih =>
    intro rest hnd h
    rw [List.nodup_cons] at hnd
    rw [List.filter_cons] at h
    rw [List.filter_cons]
    by_cases ha : mem a = 0
    · simp only [ha, decide_True, if_true, List.cons.injEq] at h
      obtain ⟨hat, hrest⟩ := h
      subst hat
      simp only [write_same, one_ne_zero, decide_False, Bool.false_eq_true, if_false]
      rw [← hrest]
      apply List.filter_congr
      intro x hx
      have hxa : x ≠ a := fun e => hnd.1 (e ▸ hx)
      simp [write_other mem a 1 x hxa]
    · simp only [ha, decide_False, Bool.false_eq_true, if_false] at h
      have hat : a ≠ t := by
        intro e
        have ht : t ∈ l.filter (fun j => mem j = 0) := by rw [h]; simp
        simp only [List.mem_filter, decide_eq_true_eq] at ht
        exact ha (e ▸ ht.2)
      simp only [write_other mem t 1 a hat, ha, decide_False, Bool.false_eq_true, if_false]
      exact ih rest hnd.2 h

theorem free_pages_get_page (mem : Mem) (t : Nat) (rest : List Nat)
    (h : free_pages mem = t :: rest) : free_pages (write mem t 1) = rest :=
  filter_write_used mem t (List.range' 1 63) rest (List.nodup_range' 1 63) h

theorem free_pages_write_high (mem : Mem) (a v : Nat) (ha : 64 ≤ a) :
    free_pages (write mem a v) = free_pages mem := by
  apply List.filter_congr
  intro x hx
  have hx' : x < 64 := by
    have := List.mem_range'_1.mp hx
    omega
  have hxa : x ≠ a := by omega
  simp [write_other mem a v x hxa]

/-! ## Process creation -/

/-- What the data-page loop does, in terms of the free list on entry: the first
`k` free pages are marked used and recorded in entries `i, i+1, ...` of page
`t`; every other byte keeps its value; the notice appears iff the list ran out. -/
theorem new_process_loop_spec (p t : Nat) (ht : 1 ≤ t) :
    ∀ (k i : Nat) (mem : Mem), i + min k (free_pages mem).length ≤ 256 →
      (∀ j, j ∈ (free_pages mem).take k → (new_process_loop p t mem i k).1 j = 1) ∧
      (∀ j, j < 64 → j ∉ (free_pages mem).take k →
        (new_process_loop p t mem i k).1 j = mem j) ∧
      (∀ d, d < min k (free_pages mem).length →
        (free_pages mem)[d]? = some ((new_process_loop p t mem i k).1 (t * 256 + i + d))) ∧
      (∀ j, 64 ≤ j → (∀ d, d < min k (free_pages mem).length → j ≠ t * 256 + i + d) →
        (new_process_loop p t mem i k).1 j = mem j) ∧
      (new_process_loop p t mem i k).2 =
        if k ≤ (free_pages mem).length then "" else oom_notice p := by
  intro k
  induction k with
  | zero =>
    intro i mem _
    simp [new_process_loop]
  | succ k ih =>
    intro i mem hle
    rcases hfs : free_pages mem with _ | ⟨f, rest⟩
    · have hg := get_page_nil mem hfs
      simp [new_process_loop, hg]
    · have hg := get_page_cons mem f rest hfs
      have hf : 1 ≤ f ∧ f < 64 ∧ mem f = 0 := by
        rw [← mem_free_pages, hfs]; simp
      have hf255 : f ≠ 255 := by omega
      rw [hfs] at hle
      simp only [List.length_cons] at hle
      have hi : i < 256 := by omega
      have hstep : new_process_loop p t mem i (k + 1) =
          new_process_loop p t (write (write mem f 1) (t * 256 + i) f) (i + 1) k := by
        simp only [new_process_loop, hg, hf255, if_false, get_address_eq t i hi]
      have hfree : free_pages (write (write mem f 1) (t * 256 + i) f) = rest := by
        rw [free_pages_write_high _ _ _ (by omega)]
        exact free_pages_get_page mem f rest hfs
      have hnd : f ∉ rest := by
        have := free_pages_nodup mem
        rw [hfs, List.nodup_cons] at this
        exact this.1
      have hrest64 : ∀ x ∈ rest, x < 64 := by
        intro x hx
        have : x ∈ free_pages mem := by rw [hfs]; exact List.mem_cons_of_mem _ hx
        exact ((mem_free_pages mem x).mp this).2.1
      obtain ⟨h1, h2, h3, h4, h5⟩ :=
        ih (i + 1) (write (write mem f 1) (t * 256 + i) f) (by rw [hfree]; omega)
      rw [hfree] at h1 h2 h3 h4 h5
      rw [hstep]
      refine ⟨?_, ?_, ?_, ?_, ?_⟩
      · intro j hj
        rw [List.take_succ_cons, List.mem_cons] at hj
        by_cases hjr : j ∈ rest.take k
        · exact h1 j hjr
        · rcases hj with hj | hj
          · subst hj
            rw [h2 j hf.2.1 hjr, write_other _ _ _ _ (by omega), write_same]
          · exact absurd hj hjr
      · intro j hj hnot
        rw [List.take_succ_cons, List.mem_cons, not_or] at hnot
        rw [h2 j hj hnot.2, write_other _ _ _ _ (by omega), write_other _ _ _ _ hnot.1]
      · intro d hd
        simp only [List.length_cons] at hd
        rcases d with _ | d
        · have hkeep := h4 (t * 256 + i) (by omega) (by intro d _; omega)
          simp only [Nat.add_zero, List.getElem?_cons_zero, Option.some.injEq]
          rw [hkeep, write_same]
        · have := h3 d (by omega)
          simp only [List.getElem?_cons_succ]
          rw [this, show t * 256 + (i + 1) + d = t * 256 + i + (d + 1) by omega]
      · intro j hj hne
        simp only [List.length_cons] at hne
        have hj0 : j ≠ t * 256 + i := by
          have := hne 0 (by omega)
          simpa using this
        rw [h4 j hj (by
          intro d hd
          have := hne (d + 1) (by omega)
          omega), write_other _ _ _ _ hj0, write_other _ _ _ _ (by omega)]
      · rw [h5]
        simp only [List.length_cons, Nat.add_le_add_iff_right]

theorem new_process_nil (mem : Mem) (p n : Nat) (h : free_pages mem = []) :
    new_process mem p n = (mem, oom_notice p) := by
  simp [new_process, get_page_nil mem h]

/-- What `new_process` does when the free list on entry is `t :: rest`. -/
theorem new_process_cons (mem : Mem) (p n t : Nat) (rest : List Nat) (hp : p < 64)
    (h : free_pages mem = t :: rest) :
    (∀ j, j ∈ (t :: rest).take (n + 1) → (new_process mem p n).1 j = 1) ∧
    (∀ j, j < 64 → j ∉ (t :: rest).take (n + 1) → (new_process mem p n).1 j = mem j) ∧
    (new_process mem p n).1 (64 + p) = t ∧
    (∀ d, d < min n rest.length →
      rest[d]? = some ((new_process mem p n).1 (t * 256 + d))) ∧
    (∀ j, 64 ≤ j → j ≠ 64 + p → (∀ d, d < min n rest.length → j ≠ t * 256 + d) →
      (new_process mem p n).1 j = mem j) ∧
    (new_process mem p n).2 = if n ≤ rest.length then "" else oom_notice p := by
  have hg := get_page_cons mem t rest h
  have ht : 1 ≤ t ∧ t < 64 ∧ mem t = 0 := by
    rw [← mem_free_pages, h]; simp
  have ht255 : t ≠ 255 := by omega
  have hlen : rest.length ≤ 62 := by
    have := free_pages_length_le mem
    rw [h] at this
    simp only [List.length_cons] at this
    omega
  have hstep : new_process mem p n =
      new_process_loop p t (write (write mem t 1) (64 + p) t) 0 n := by
    simp only [new_process, hg, ht255, if_false, PAGE_COUNT]
  have hfree : free_pages (write (write mem t 1) (64 + p) t) = rest := by
    rw [free_pages_write_high _ _ _ (by omega)]
    exact free_pages_get_page mem t rest h
  have hnd : t ∉ rest := by
    have := free_pages_nodup mem
    rw [h, List.nodup_cons] at this
    exact this.1
  obtain ⟨h1, h2, h3, h4, h5⟩ :=
    new_process_loop_spec p t ht.1 n 0 (write (write mem t 1) (64 + p) t)
      (by rw [hfree]; omega)
  rw [hfree] at h1 h2 h3 h4 h5
  simp only [Nat.add_zero] at h3 h4
  rw [hstep]
  refine ⟨?_, ?_, ?_, ?_, ?_, h5⟩
  · intro j hj
    rw [List.take_succ_cons, List.mem_cons] at hj
    by_cases hjr : j ∈ rest.take n
    · exact h1 j hjr
    · rcases hj with hj | hj
      · subst hj
        rw [h2 j ht.2.1 hjr, write_other _ _ _ _ (by omega), write_same]
      · exact absurd hj hjr
  · intro j hj hnot
    rw [List.take_succ_cons, List.mem_cons, not_or] at hnot
    rw [h2 j hj hnot.2, write_other _ _ _ _ (by omega), write_other _ _ _ _ hnot.1]
  · rw [h4 (64 + p) (by omega) (by intro d _; omega), write_same]
  · exact h3
  · intro j hj hjp hne
    rw [h4 j hj hne, write_other _ _ _ _ hjp, write_other _ _ _ _ (by omega)]

/-! ## Facts about the ascending free list -/

theorem free_pages_head_least (mem : Mem) (t : Nat) (rest : List Nat)
    (h : free_pages mem = t :: rest) : ∀ j, 1 ≤ j → j < t → mem j ≠ 0 := by
  intro j hj1 hjt hj0
  have hjm : j ∈ free_pages mem := (mem_free_pages mem j).mpr ⟨hj1, by
    have : t ∈ free_pages mem := by rw [h]; simp
    have := ((mem_free_pages mem t).mp this).2.1
    omega, hj0⟩
  have hs := free_pages_sorted mem
  rw [h, List.pairwise_cons] at hs
  rw [h, List.mem_cons] at hjm
  rcases hjm with e | hr
  · omega
  · have := hs.1 j hr
    omega

theorem free_pages_getElem?_lt (mem : Mem) (a b x y : Nat) (hab : a < b)
    (hx : (free_pages mem)[a]? = some x) (hy : (free_pages mem)[b]? = some y) : x < y := by
  obtain ⟨ha, rfl⟩ := List.getElem?_eq_some.mp hx
  obtain ⟨hb, rfl⟩ := List.getElem?_eq_some.mp hy
  exact List.pairwise_iff_getElem.mp (free_pages_sorted mem) a b ha hb hab

theorem free_pages_getElem?_mem (mem : Mem) (a x : Nat)
    (hx : (free_pages mem)[a]? = some x) : 1 ≤ x ∧ x < 64 ∧ mem x = 0 :=
  (mem_free_pages mem x).mp (List.mem_iff_getElem?.mpr ⟨a, hx⟩)

/-! ## The allocator: claims C1-C3 -/

set_option maxRecDepth 1000000

/-- C1: when some bitmap byte `mem[i]`, `1 <= i < 64`, is 0, `get_page` returns
the least such `i`, sets `mem[i]` to 1 and leaves every other byte unchanged. -/
theorem get_page_returns_least_free (mem : Mem)
    (h : ∃ i, 1 ≤ i ∧ i < 64 ∧ mem i = 0) :
    1 ≤ (get_page mem).1 ∧ (get_page mem).1 < 64 ∧ mem (get_page mem).1 = 0 ∧
    (∀ j, 1 ≤ j → j < (get_page mem).1 → mem j ≠ 0) ∧
    (get_page mem).2 (get_page mem).1 = 1 ∧
    (∀ j, j ≠ (get_page mem).1 → (get_page mem).2 j = mem j) := by
  rcases hfs : free_pages mem with _ | ⟨t, rest⟩
  · obtain ⟨i, hi⟩ := h
    have := (mem_free_pages mem i).mpr hi
    rw [hfs] at this
    simp at this
  · rw [get_page_cons mem t rest hfs]
    have ht : 1 ≤ t ∧ t < 64 ∧ mem t = 0 := by
      rw [← mem_free_pages, hfs]; simp
    refine ⟨ht.1, ht.2.1, ht.2.2, free_pages_head_least mem t rest hfs, ?_, ?_⟩
    · exact write_same mem t 1
    · intro j hj
      exact write_other mem t 1 j hj

theorem get_page_returns_least_free_witness :
    (∃ i, 1 ≤ i ∧ i < 64 ∧ initialize_mem i = 0) ∧
    1 ≤ (get_page initialize_mem).1 ∧ (get_page initialize_mem).1 < 64 ∧
    initialize_mem (get_page initialize_mem).1 = 0 ∧
    (∀ j, 1 ≤ j → j < (get_page initialize_mem).1 → initialize_mem j ≠ 0) ∧
    (get_page initialize_mem).2 (get_page initialize_mem).1 = 1 ∧
    (∀ j, j ≠ (get_page initialize_mem).1 →
      (get_page initialize_mem).2 j = initialize_mem j) :=
  ⟨⟨1, by decide⟩, get_page_returns_least_free initialize_mem ⟨1, by decide⟩⟩

/-- C2, as stated, fails: on the arena left by `np 0 62` every page 1..63 is in
use and `get_page` returns 255, which is not below `PAGE_COUNT`. -/
theorem get_page_value_counterexample :
    ¬ ((get_page exhausted_mem).1 ≠ 0 ∧ (get_page exhausted_mem).1 < PAGE_COUNT) := by
  decide

/-- C2 (amended): the value returned by `get_page` is never 0; it is a page
number in `[1, 64)` when some bitmap byte `1..63` is free, and the sentinel
`0xff` exactly when none is. -/
theorem get_page_value_range (mem : Mem) :
    (get_page mem).1 ≠ 0 ∧
    ((1 ≤ (get_page mem).1 ∧ (get_page mem).1 < PAGE_COUNT) ∨ (get_page mem).1 = 0xff) ∧
    ((get_page mem).1 = 0xff ↔ ∀ i, 1 ≤ i → i < 64 → mem i ≠ 0) := by
  rcases hfs : free_pages mem with _ | ⟨t, rest⟩
  · rw [get_page_nil mem hfs]
    refine ⟨by simp, Or.inr rfl, ?_⟩
    simp only [true_iff]
    intro i h1 h2 h0
    have := (mem_free_pages mem i).mpr ⟨h1, h2, h0⟩
    rw [hfs] at this
    simp at this
  · rw [get_page_cons mem t rest hfs]
    have ht : 1 ≤ t ∧ t < 64 ∧ mem t = 0 := by
      rw [← mem_free_pages, hfs]; simp
    refine ⟨by simp only; omega, Or.inl ⟨ht.1, ht.2.1⟩, ?_⟩
    constructor
    · intro h
      simp only at h
      omega
    · intro h
      exact absurd ht.2.2 (h t ht.1 ht.2.1)

/-- C3: when every bitmap byte `mem[1..63]` is nonzero, `get_page` returns the
sentinel `0xff` (255, outside the page range) and leaves the arena unchanged. -/
theorem get_page_exhausted (mem : Mem) (h : ∀ i, 1 ≤ i → i < 64 → mem i ≠ 0) :
    get_page mem = (0xff, mem) ∧ ¬ (0xff < PAGE_COUNT) := by
  refine ⟨get_page_nil mem ?_, by decide⟩
  rw [List.eq_nil_iff_forall_not_mem]
  intro x hx
  have := (mem_free_pages mem x).mp hx
  exact h x this.1 this.2.1 this.2.2

theorem get_page_exhausted_witness :
    (∀ i, 1 ≤ i → i < 64 → exhausted_mem i ≠ 0) ∧
    get_page exhausted_mem = (0xff, exhausted_mem) ∧ ¬ (0xff < PAGE_COUNT) :=
  have h : ∀ i, i < 64 → 1 ≤ i → exhausted_mem i ≠ 0 := by decide
  ⟨fun i h1 h2 => h i h2 h1,
    get_page_exhausted exhausted_mem (fun i h1 h2 => h i h2 h1)⟩

/-! ## Process creation: claims C4, C5 -/

/-- C4: for `p < 64` and at least `n + 1` free pages among `1..63`, after
`new_process(p, n)` exactly `n + 1` bitmap bytes differ from before, each one
changed from free to used, no bitmap byte changed from used to free, and the
directory byte `mem[64 + p]` is nonzero. -/
theorem new_process_bitmap_delta (mem : Mem) (p n : Nat) (hp : p < 64)
    (hfree : n + 1 ≤ (free_pages mem).length) :
    ((Finset.range 64).filter
      (fun j => (new_process mem p n).1 j ≠ mem j)).card = n + 1 ∧
    (∀ j, j < 64 → (new_process mem p n).1 j ≠ mem j →
      mem j = 0 ∧ (new_process mem p n).1 j ≠ 0) ∧
    (∀ j, j < 64 → mem j ≠ 0 → (new_process mem p n).1 j ≠ 0) ∧
    (new_process mem p n).1 (64 + p) ≠ 0 := by
  rcases hfs : free_pages mem with _ | ⟨t, rest⟩
  · rw [hfs] at hfree
    simp at hfree
  · obtain ⟨h1, h2, h3, -, -, -⟩ := new_process_cons mem p n t rest hp hfs
    have ht : 1 ≤ t ∧ t < 64 ∧ mem t = 0 := by
      rw [← mem_free_pages, hfs]; simp
    have hsub : ∀ j, j ∈ (t :: rest).take (n + 1) → j < 64 ∧ mem j = 0 := by
      intro j hj
      have hj' : j ∈ free_pages mem := by
        rw [hfs]; exact List.mem_of_mem_take hj
      exact ((mem_free_pages mem j).mp hj').2
    have hchg : ∀ j, j < 64 → (new_process mem p n).1 j ≠ mem j →
        j ∈ (t :: rest).take (n + 1) := by
      intro j hj hne
      by_contra hnot
      exact hne (h2 j hj hnot)
    refine ⟨?_, ?_, ?_, ?_⟩
    · have hset : (Finset.range 64).filter
          (fun j => (new_process mem p n).1 j ≠ mem j) =
          ((t :: rest).take (n + 1)).toFinset := by
        ext j
        simp only [Finset.mem_filter, Finset.mem_range, List.mem_toFinset]
        constructor
        · intro hj
          exact hchg j hj.1 hj.2
        · intro hj
          refine ⟨(hsub j hj).1, ?_⟩
          rw [h1 j hj, (hsub j hj).2]
          exact one_ne_zero
      have hnd : ((t :: rest).take (n + 1)).Nodup := by
        have := free_pages_nodup mem
        rw [hfs] at this
        exact List.Nodup.sublist (List.take_sublist _ _) this
      rw [hset, List.toFinset_card_of_nodup hnd, List.length_take]
      rw [hfs] at hfree
      omega
    · intro j hj hne
      have hmem := hchg j hj hne
      refine ⟨(hsub j hmem).2, ?_⟩
      rw [h1 j hmem]
      exact one_ne_zero
    · intro j hj hused
      by_cases hmem : j ∈ (t :: rest).take (n + 1)
      · rw [h1 j hmem]
        exact one_ne_zero
      · rw [h2 j hj hmem]
        exact hused
    · rw [h3]
      omega

theorem new_process_bitmap_delta_witness :
    (0 : Nat) < 64 ∧ 2 + 1 ≤ (free_pages initialize_mem).length ∧
    ((Finset.range 64).filter
      (fun j => (new_process initialize_mem 0 2).1 j ≠ initialize_mem j)).card = 2 + 1 ∧
    (∀ j, j < 64 → (new_process initialize_mem 0 2).1 j ≠ initialize_mem j →
      initialize_mem j = 0 ∧ (new_process initialize_mem 0 2).1 j ≠ 0) ∧
    (∀ j, j < 64 → initialize_mem j ≠ 0 → (new_process initialize_mem 0 2).1 j ≠ 0) ∧
    (new_process initialize_mem 0 2).1 (64 + 0) ≠ 0 :=
  ⟨by decide, by decide,
    new_process_bitmap_delta initialize_mem 0 2 (by decide) (by decide)⟩

/-- C5: for `p < 64` and at least `n + 1` free pages among `1..63`, after
`new_process(p, n)` the directory byte `mem[64 + p]` is `t`, the lowest page
free before the call, and entry `i < n` of page `t` is the `(i+2)`-th lowest
page free before the call; the `n` entries are strictly increasing, pairwise
distinct, different from `t` and from 0, and lie in `[1, 64)`.  Here
`free_pages mem` lists, in ascending order, exactly the pages `1..63` whose
bitmap byte is 0. -/
theorem new_process_table_contents (mem : Mem) (p n : Nat) (hp : p < 64)
    (hfree : n + 1 ≤ (free_pages mem).length) :
    (free_pages mem).Pairwise (· < ·) ∧
    (∀ x, x ∈ free_pages mem ↔ 1 ≤ x ∧ x < 64 ∧ mem x = 0) ∧
    (free_pages mem)[0]? = some ((new_process mem p n).1 (64 + p)) ∧
    (∀ j, 1 ≤ j → j < (new_process mem p n).1 (64 + p) → mem j ≠ 0) ∧
    (∀ i, i < n → (free_pages mem)[i + 1]? =
      some ((new_process mem p n).1 ((new_process mem p n).1 (64 + p) * 256 + i))) ∧
    (∀ i j, i < j → j < n →
      (new_process mem p n).1 ((new_process mem p n).1 (64 + p) * 256 + i) <
      (new_process mem p n).1 ((new_process mem p n).1 (64 + p) * 256 + j)) ∧
    (∀ i j, i < n → j < n → i ≠ j →
      (new_process mem p n).1 ((new_process mem p n).1 (64 + p) * 256 + i) ≠
      (new_process mem p n).1 ((new_process mem p n).1 (64 + p) * 256 + j)) ∧
    (∀ i, i < n →
      (new_process mem p n).1 ((new_process mem p n).1 (64 + p) * 256 + i) ≠
        (new_process mem p n).1 (64 + p) ∧
      (new_process mem p n).1 ((new_process mem p n).1 (64 + p) * 256 + i) ≠ 0 ∧
      1 ≤ (new_process mem p n).1 ((new_process mem p n).1 (64 + p) * 256 + i) ∧
      (new_process mem p n).1 ((new_process mem p n).1 (64 + p) * 256 + i) < 64) := by
  rcases hfs : free_pages mem with _ | ⟨t, rest⟩
  · rw [hfs] at hfree
    simp at hfree
  · obtain ⟨-, -, h3, h4, -, -⟩ := new_process_cons mem p n t rest hp hfs
    rw [hfs] at hfree
    simp only [List.length_cons] at hfree
    have hmin : min n rest.length = n := by omega
    rw [hmin] at h4
    have hent : ∀ i, i < n → (free_pages mem)[i + 1]? =
        some ((new_process mem p n).1 (t * 256 + i)) := by
      intro i hi
      rw [hfs, List.getElem?_cons_succ]
      exact h4 i hi
    have hhead : (free_pages mem)[0]? = some t := by rw [hfs]; simp
    have hlt : ∀ i j, i < j → j < n →
        (new_process mem p n).1 (t * 256 + i) < (new_process mem p n).1 (t * 256 + j) := by
      intro i j hij hj
      exact free_pages_getElem?_lt mem (i + 1) (j + 1) _ _ (by omega)
        (hent i (by omega)) (hent j hj)
    rw [← hfs, h3]
    refine ⟨free_pages_sorted mem, mem_free_pages mem, hhead,
      free_pages_head_least mem t rest hfs, hent, hlt, ?_, ?_⟩
    · intro i j hi hj hij
      rcases Nat.lt_or_gt_of_ne hij with h | h
      · exact Nat.ne_of_lt (hlt i j h hj)
      · exact Nat.ne_of_gt (hlt j i h hi)
    · intro i hi
      have hgt := free_pages_getElem?_lt mem 0 (i + 1) _ _ (by omega) hhead (hent i hi)
      have hin := free_pages_getElem?_mem mem (i + 1) _ (hent i hi)
      omega

theorem new_process_table_contents_witness :
    (0 : Nat) < 64 ∧ 2 + 1 ≤ (free_pages initialize_mem).length ∧
    (free_pages initialize_mem)[0]? = some ((new_process initialize_mem 0 2).1 (64 + 0)) ∧
    (∀ i, i < 2 → (free_pages initialize_mem)[i + 1]? =
      some ((new_process initialize_mem 0 2).1
        ((new_process initialize_mem 0 2).1 (64 + 0) * 256 + i))) :=
  ⟨by decide, by decide,
    (new_process_table_contents initialize_mem 0 2 (by decide) (by decide)).2.2.1,
    (new_process_table_contents initialize_mem 0 2 (by decide) (by decide)).2.2.2.2.1⟩

/-! ## Store and load: claim C7 -/

theorem get_phys_addr_eq (mem : Mem) (p a : Nat) (ha : a < 65536) :
    get_phys_addr mem p a =
      mem (mem (64 + p) * 256 + (a >>> 8)) * 256 + a % 256 := by
  have hvp : a >>> 8 < 256 := by rw [shr8_eq]; omega
  have hoff : a % 256 < 256 := Nat.mod_lt _ (by decide)
  simp only [get_phys_addr, get_page_table, PAGE_COUNT, and255_eq]
  rw [get_address_eq _ _ hoff, get_address_eq _ _ hvp, Nat.add_comm p 64]

/-- C7: store/load round trip.  For `p < 64`, `a < 65536`, a page table
`t = mem[64 + p]` in `[1, 64)` and a mapped entry `e = mem[t*256 + (a >> 8)]`
in `[1, 64)` with `e != t`: after `store_value(p, a, v)`, `load_value(p, a)`
translates to the same physical address and reports the value `v mod 256`;
the page-table index read and the physical address lie inside the arena. -/
theorem store_load_round_trip (mem : Mem) (p a : Nat) (v : Int) (hp : p < 64)
    (ha : a < 65536) (ht : 1 ≤ mem (64 + p) ∧ mem (64 + p) < 64)
    (he : 1 ≤ mem (mem (64 + p) * 256 + (a >>> 8)) ∧
      mem (mem (64 + p) * 256 + (a >>> 8)) < 64 ∧
      mem (mem (64 + p) * 256 + (a >>> 8)) ≠ mem (64 + p)) :
    mem (64 + p) * 256 + (a >>> 8) < MEM_SIZE ∧ get_phys_addr mem p a < MEM_SIZE ∧
    get_phys_addr (store_value mem p a v).1 p a = get_phys_addr mem p a ∧
    (store_value mem p a v).1 (get_phys_addr mem p a) = (v % 256).toNat ∧
    load_value (store_value mem p a v).1 p a =
      "Load proc " ++ toString p ++ ": " ++ toString a ++ " => "
        ++ toString (get_phys_addr mem p a) ++ ", value="
        ++ toString (v % 256).toNat ++ "\n" := by
  have hvp : a >>> 8 < 256 := by rw [shr8_eq]; omega
  have hoff : a % 256 < 256 := Nat.mod_lt _ (by decide)
  have hphys := get_phys_addr_eq mem p a ha
  have hdir : (store_value mem p a v).1 (64 + p) = mem (64 + p) := by
    simp only [store_value]
    apply write_other
    rw [hphys]
    omega
  have hent : (store_value mem p a v).1 (mem (64 + p) * 256 + (a >>> 8)) =
      mem (mem (64 + p) * 256 + (a >>> 8)) := by
    simp only [store_value]
    apply write_other
    rw [hphys]
    omega
  have hsame : get_phys_addr (store_value mem p a v).1 p a = get_phys_addr mem p a := by
    rw [get_phys_addr_eq _ p a ha, hdir, hent, hphys]
  have hval : (store_value mem p a v).1 (get_phys_addr mem p a) = (v % 256).toNat := by
    simp only [store_value, to_uchar, write_same]
  refine ⟨by unfold MEM_SIZE; omega, by rw [hphys]; unfold MEM_SIZE; omega,
    hsame, hval, ?_⟩
  simp only [load_value]
  rw [hsame, hval]

theorem store_load_round_trip_witness :
    load_value (store_value (new_process initialize_mem 0 2).1 0 0 (-1)).1 0 0 =
      "Load proc " ++ toString 0 ++ ": " ++ toString 0 ++ " => "
        ++ toString (get_phys_addr (new_process initialize_mem 0 2).1 0 0) ++ ", value="
        ++ toString ((-1 : Int) % 256).toNat ++ "\n" :=
  (store_load_round_trip (new_process initialize_mem 0 2).1 0 0 (-1) (by decide)
    (by decide) (by decide) (by decide)).2.2.2.2

/-! ## Exhaustion: claim C8 -/

/-- C8: exhaustion policy of `new_process`.  With exactly `f` free pages among
`1..63`, `p < 64` and `n >= f`: if `f = 0` the arena is unchanged; if `f >= 1`
every bitmap byte `1..63` is used afterwards, exactly the `f` previously free
bytes changed, the directory byte holds the lowest previously free page `t`,
entries `0..f-2` of page `t` hold the remaining free pages in ascending order,
and no other byte (in particular no entry of index `>= f-1`) is written; in
both cases the notice `OOM: proc p: page table` is the output. -/
theorem new_process_exhaustion (mem : Mem) (p n : Nat) (hp : p < 64)
    (hn : (free_pages mem).length ≤ n) :
    ((free_pages mem).length = 0 → (new_process mem p n).1 = mem) ∧
    (1 ≤ (free_pages mem).length →
      (∀ j, 1 ≤ j → j < 64 → (new_process mem p n).1 j ≠ 0) ∧
      (∀ j, j < 64 → ((new_process mem p n).1 j ≠ mem j ↔ 1 ≤ j ∧ mem j = 0)) ∧
      (free_pages mem)[0]? = some ((new_process mem p n).1 (64 + p)) ∧
      (∀ i, i + 1 < (free_pages mem).length → (free_pages mem)[i + 1]? =
        some ((new_process mem p n).1 ((new_process mem p n).1 (64 + p) * 256 + i))) ∧
      (∀ i, (free_pages mem).length - 1 ≤ i → i < 256 →
        (new_process mem p n).1 ((new_process mem p n).1 (64 + p) * 256 + i) =
          mem ((new_process mem p n).1 (64 + p) * 256 + i)) ∧
      (∀ j, 64 ≤ j → j ≠ 64 + p →
        (∀ i, i + 1 < (free_pages mem).length →
          j ≠ (new_process mem p n).1 (64 + p) * 256 + i) →
        (new_process mem p n).1 j = mem j)) ∧
    (new_process mem p n).2 = "OOM: proc " ++ toString p ++ ": page table\n" := by
  rcases hfs : free_pages mem with _ | ⟨t, rest⟩
  · rw [new_process_nil mem p n hfs]
    simp [oom_notice]
  · obtain ⟨h1, h2, h3, h4, h5, h6⟩ := new_process_cons mem p n t rest hp hfs
    rw [hfs] at hn
    simp only [List.length_cons] at hn
    have hmin : min n rest.length = rest.length := by omega
    rw [hmin] at h4 h5
    have htake : (t :: rest).take (n + 1) = t :: rest :=
      List.take_of_length_le (by simp only [List.length_cons]; omega)
    rw [htake, ← hfs] at h1 h2
    have ht : 1 ≤ t ∧ t < 64 ∧ mem t = 0 := by
      rw [← mem_free_pages, hfs]; simp
    simp only [List.length_cons, Nat.add_one_ne_zero, false_implies, true_and,
      Nat.le_add_left, forall_true_left, Nat.add_lt_add_iff_right, Nat.add_sub_cancel,
      List.getElem?_cons_succ, List.getElem?_cons_zero, h3]
    refine ⟨⟨?_, ?_, ?_, ?_, ?_⟩, ?_⟩
    · intro j hj1 hj2
      by_cases hj0 : mem j = 0
      · rw [h1 j ((mem_free_pages mem j).mpr ⟨hj1, hj2, hj0⟩)]
        exact one_ne_zero
      · rw [h2 j hj2 (fun hm => hj0 ((mem_free_pages mem j).mp hm).2.2)]
        exact hj0
    · intro j hj
      constructor
      · intro hne
        by_contra hnot
        exact hne (h2 j hj (fun hm => hnot
          ⟨((mem_free_pages mem j).mp hm).1, ((mem_free_pages mem j).mp hm).2.2⟩))
      · intro hj0
        rw [h1 j ((mem_free_pages mem j).mpr ⟨hj0.1, hj, hj0.2⟩), hj0.2]
        exact one_ne_zero
    · exact h4
    · intro i hi1 hi2
      exact h5 (t * 256 + i) (by omega) (by omega) (by intro d hd; omega)
    · intro j hj hjp hne
      exact h5 j hj hjp hne
    · rw [h6, if_neg (by omega)]
      rfl

theorem new_process_exhaustion_witness :
    (0 : Nat) < 64 ∧ (free_pages initialize_mem).length ≤ 70 ∧
    (new_process initialize_mem 0 70).2 = "OOM: proc " ++ toString 0 ++ ": page table\n" :=
  ⟨by decide, by decide,
    (new_process_exhaustion initialize_mem 0 70 (by decide) (by decide)).2.2⟩

/-! ## The concrete scenario: claim C9 -/

/-- C9: from `initialize_mem`, after `new_process(0, 2)` the directory byte
`mem[64]` is nonzero and exactly the bitmap bytes 0, 1, 2, 3 are used;
`store_value(0, 0, 42)` then `load_value(0, 0)` reports value 42;
`print_page_free_map` then shows exactly four `#`; after `kill_process(0)` it
shows exactly one, the glyph of page 0. -/
theorem scenario_create_store_load_kill :
    (new_process initialize_mem 0 2).1 64 ≠ 0 ∧
    (∀ j, j < 64 → ((new_process initialize_mem 0 2).1 j ≠ 0 ↔ j ∈ [0, 1, 2, 3])) ∧
    load_value (store_value (new_process initialize_mem 0 2).1 0 0 42).1 0 0 =
      "Load proc 0: 0 => 512, value=42\n" ∧
    print_page_free_map (store_value (new_process initialize_mem 0 2).1 0 0 42).1 =
      "--- PAGE FREE MAP ---\n####............\n................\n"
        ++ "................\n................\n" ∧
    (print_page_free_map
      (store_value (new_process initialize_mem 0 2).1 0 0 42).1).toList.count '#' = 4 ∧
    print_page_free_map
      (kill_process (store_value (new_process initialize_mem 0 2).1 0 0 42).1 0) =
      "--- PAGE FREE MAP ---\n#...............\n................\n"
        ++ "................\n................\n" ∧
    (print_page_free_map (kill_process
      (store_value (new_process initialize_mem 0 2).1 0 0 42).1 0)).toList.count '#' = 1 := by
  refine ⟨by decide, by decide, by decide, by decide, by decide, by decide, by decide⟩

/-! ## Recycled data pages: claims C6, C10

`get_page` hands out a page without clearing it and `kill_process` clears the
entries of a page table but not the contents of data pages.  A data page that
is later reused as a page table therefore still holds whatever `sb` stored in
it, and `kill_process` reads those bytes as mappings. -/

/-- C6 at a failing input.  `stale_cmds` is a valid command line; in the arena
it leaves, process 2 is not live and a page is free.  `new_process(2, 0)`
succeeds and takes page 2 as page table, whose byte 0 still holds the value 1
stored earlier.  `kill_process(2)` then frees page 1, the page table of live
process 1: the bitmap byte `mem[1]` was 1 before `new_process` and is 0 after
the round trip. -/
theorem create_kill_round_trip_fails :
    cmds_valid initialize_mem [] stale_cmds = true ∧
    live_run [] stale_cmds = [1] ∧
    0 + 1 ≤ (free_pages stale_mem).length ∧
    (new_process stale_mem 2 0).2 = "" ∧
    (new_process stale_mem 2 0).1 (64 + 2) = 2 ∧
    (new_process stale_mem 2 0).1 (2 * 256 + 0) = 1 ∧
    stale_mem (64 + 1) = 1 ∧
    stale_mem 1 = 1 ∧
    kill_process (new_process stale_mem 2 0).1 2 1 = 0 := by
  refine ⟨by decide!, by decide, by decide!, by decide!,
    by decide!, by decide!, by decide!, by decide!,
    by decide!⟩

/-- C10 at a failing input.  After the valid command line
`stale_cmds ++ [np 2 0, kp 2]` process 1 is live and page 1 is its registered
page table, yet the bitmap byte `mem[1]` is 0. -/
theorem bitmap_reference_invariant_fails :
    cmds_valid initialize_mem [] (stale_cmds ++ [Cmd.np 2 0, Cmd.kp 2]) = true ∧
    live_run [] (stale_cmds ++ [Cmd.np 2 0, Cmd.kp 2]) = [1] ∧
    (run initialize_mem (stale_cmds ++ [Cmd.np 2 0, Cmd.kp 2])).1 1 = 0 ∧
    page_referenced (run initialize_mem (stale_cmds ++ [Cmd.np 2 0, Cmd.kp 2])).1
      (live_run [] (stale_cmds ++ [Cmd.np 2 0, Cmd.kp 2])) 1 := by
  refine ⟨by decide!, by decide, by decide!, 1, by decide,
    Or.inl (by decide!)⟩

/-! ## Process teardown: claim C13 -/

/-- What the loop of `kill_process` does on a page table `t >= 1` whose entries
`i .. i+k-1` are below 64: those entries become 0, the byte named by each
nonzero one becomes 0, and every other byte keeps its value. -/
theorem kill_process_loop_spec (t : Nat) (ht : 1 ≤ t) :
    ∀ (k i : Nat) (mem : Mem), i + k ≤ 256 →
      (∀ d, i ≤ d → d < i + k → mem (t * 256 + d) < 64) →
      (∀ d, i ≤ d → d < i + k → kill_process_loop t mem i k (t * 256 + d) = 0) ∧
      (∀ d, i ≤ d → d < i + k → mem (t * 256 + d) ≠ 0 →
        kill_process_loop t mem i k (mem (t * 256 + d)) = 0) ∧
      (∀ j, (j < t * 256 + i ∨ t * 256 + i + k ≤ j) →
        (∀ d, i ≤ d → d < i + k → mem (t * 256 + d) ≠ 0 → mem (t * 256 + d) ≠ j) →
        kill_process_loop t mem i k j = mem j) := by
  intro k
  induction k with
  | zero =>
    intro i mem _ _
    refine ⟨?_, ?_, ?_⟩
    · intro d h1 h2; omega
    · intro d h1 h2; omega
    · intro j _ _; rfl
  | succ k ih =>
    intro i mem hik hent
    have hi : i < 256 := by omega
    have he := hent i (Nat.le_refl i) (by omega)
    by_cases hz : mem (t * 256 + i) = 0
    · have hstep : kill_process_loop t mem i (k + 1) = kill_process_loop t mem (i + 1) k := by
        simp only [kill_process_loop, get_address_eq t i hi, hz, ne_eq, not_true_eq_false,
          if_false]
      obtain ⟨ha, hb, hc⟩ := ih (i + 1) mem (by omega)
        (fun d h1 h2 => hent d (by omega) (by omega))
      rw [hstep]
      refine ⟨?_, ?_, ?_⟩
      · intro d h1 h2
        by_cases hdi : d = i
        · subst hdi
          rw [hc (t * 256 + d) (Or.inl (by omega)) (by
            intro d' h1' h2' _
            have := hent d' (by omega) (by omega)
            omega)]
          exact hz
        · exact ha d (by omega) (by omega)
      · intro d h1 h2 hne
        have hdi : d ≠ i := fun e => hne (e ▸ hz)
        exact hb d (by omega) (by omega) hne
      · intro j hj hno
        exact hc j (by omega) (fun d h1 h2 => hno d (by omega) (by omega))
    · have hstep : kill_process_loop t mem i (k + 1) = kill_process_loop t
          (write (write mem (mem (t * 256 + i)) 0) (t * 256 + i) 0) (i + 1) k := by
        simp only [kill_process_loop, get_address_eq t i hi, dealloc_page, ne_eq, hz,
          not_false_eq_true, if_true]
      have hsame : ∀ d, i + 1 ≤ d → d < i + 1 + k →
          write (write mem (mem (t * 256 + i)) 0) (t * 256 + i) 0 (t * 256 + d) =
            mem (t * 256 + d) := by
        intro d h1 h2
        rw [write_other _ _ _ _ (by omega), write_other _ _ _ _ (by omega)]
      obtain ⟨ha, hb, hc⟩ := ih (i + 1)
        (write (write mem (mem (t * 256 + i)) 0) (t * 256 + i) 0) (by omega)
        (fun d h1 h2 => by rw [hsame d h1 h2]; exact hent d (by omega) (by omega))
      rw [hstep]
      refine ⟨?_, ?_, ?_⟩
      · intro d h1 h2
        by_cases hdi : d = i
        · subst hdi
          rw [hc (t * 256 + d) (Or.inl (by omega)) (by
            intro d' h1' h2' _
            rw [hsame d' h1' h2']
            have := hent d' (by omega) (by omega)
            omega)]
          exact write_same _ _ _
        · exact ha d (by omega) (by omega)
      · intro d h1 h2 hne
        by_cases hex : ∃ d', i + 1 ≤ d' ∧ d' < i + 1 + k ∧
            mem (t * 256 + d') = mem (t * 256 + d)
        · obtain ⟨d', h1', h2', heq⟩ := hex
          have := hb d' h1' h2' (by rw [hsame d' h1' h2', heq]; exact hne)
          rw [hsame d' h1' h2', heq] at this
          exact this
        · have hdi : d = i := by
            by_contra hdi
            exact hex ⟨d, by omega, by omega, rfl⟩
          subst hdi
          rw [hc (mem (t * 256 + d)) (Or.inl (by omega)) (by
            intro d' h1' h2' _ heq
            rw [hsame d' h1' h2'] at heq
            exact hex ⟨d', h1', h2', heq⟩)]
          rw [write_other _ _ _ _ (by omega)]
          exact write_same _ _ _
      · intro j hj hno
        rw [hc j (by omega) (by
          intro d h1 h2 hne
          rw [hsame d h1 h2] at hne ⊢
          exact hno d (by omega) (by omega) hne)]
        have hji : j ≠ t * 256 + i := by omega
        have hje : j ≠ mem (t * 256 + i) := fun e =>
          hno i (Nat.le_refl i) (by omega) hz e.symm
        rw [write_other _ _ _ _ hji, write_other _ _ _ _ hje]

/-- What `kill_process` does to a process whose page table `t >= 1` has all its
256 entries below 64. -/
theorem kill_process_spec (mem : Mem) (p : Nat) (ht : 1 ≤ mem (64 + p))
    (hent : ∀ i, i < 256 → mem (mem (64 + p) * 256 + i) < 64) :
    (∀ i, i < 256 → kill_process mem p (mem (64 + p) * 256 + i) = 0) ∧
    (∀ i, i < 256 → mem (mem (64 + p) * 256 + i) ≠ 0 →
      kill_process mem p (mem (mem (64 + p) * 256 + i)) = 0) ∧
    kill_process mem p (mem (64 + p)) = 0 ∧
    (∀ j, j ≠ mem (64 + p) →
      (j < mem (64 + p) * 256 ∨ mem (64 + p) * 256 + 256 ≤ j) →
      (∀ i, i < 256 → mem (mem (64 + p) * 256 + i) ≠ 0 →
        mem (mem (64 + p) * 256 + i) ≠ j) →
      kill_process mem p j = mem j) := by
  obtain ⟨ha, hb, hc⟩ := kill_process_loop_spec (mem (64 + p)) ht 256 0 mem (by omega)
    (fun d _ h2 => hent d (by omega))
  have hkill : kill_process mem p =
      write (kill_process_loop (mem (64 + p)) mem 0 256) (mem (64 + p)) 0 := by
    simp only [kill_process, get_page_table, PAGE_COUNT, PAGE_SIZE, dealloc_page,
      Nat.add_comm p 64]
  rw [hkill]
  refine ⟨?_, ?_, write_same _ _ _, ?_⟩
  · intro i hi
    rw [write_other _ _ _ _ (by omega)]
    exact ha i (Nat.zero_le i) (by omega)
  · intro i hi hne
    by_cases het : mem (mem (64 + p) * 256 + i) = mem (64 + p)
    · rw [het]
      exact write_same _ _ _
    · rw [write_other _ _ _ _ het]
      exact hb i (Nat.zero_le i) (by omega) hne
  · intro j hjt hj hno
    rw [write_other _ _ _ _ hjt]
    exact hc j (by omega) (fun d _ h2 hne => hno d (by omega) hne)

/-- C13: postcondition of `kill_process`.  For `p < 64` whose page table
`t = mem[64 + p]` is in `[1, 64)` and whose 256 entries are each 0 or a page in
`[1, 64)` other than `t`: afterwards every entry of page `t` is 0, the bitmap
byte of every page named by a nonzero entry is 0, the bitmap byte `mem[t]` is
0, and every other byte is unchanged; in particular the directory byte
`mem[64 + p]` still holds `t`. -/
theorem kill_process_postcondition (mem : Mem) (p : Nat) (hp : p < 64)
    (ht : 1 ≤ mem (64 + p) ∧ mem (64 + p) < 64)
    (hent : ∀ i, i < 256 → mem (mem (64 + p) * 256 + i) = 0 ∨
      (1 ≤ mem (mem (64 + p) * 256 + i) ∧ mem (mem (64 + p) * 256 + i) < 64 ∧
        mem (mem (64 + p) * 256 + i) ≠ mem (64 + p))) :
    (∀ i, i < 256 → kill_process mem p (mem (64 + p) * 256 + i) = 0) ∧
    (∀ i, i < 256 → mem (mem (64 + p) * 256 + i) ≠ 0 →
      kill_process mem p (mem (mem (64 + p) * 256 + i)) = 0) ∧
    kill_process mem p (mem (64 + p)) = 0 ∧
    (∀ j, j ≠ mem (64 + p) →
      (j < mem (64 + p) * 256 ∨ mem (64 + p) * 256 + 256 ≤ j) →
      (∀ i, i < 256 → mem (mem (64 + p) * 256 + i) ≠ 0 →
        mem (mem (64 + p) * 256 + i) ≠ j) →
      kill_process mem p j = mem j) ∧
    kill_process mem p (64 + p) = mem (64 + p) := by
  have hlt : ∀ i, i < 256 → mem (mem (64 + p) * 256 + i) < 64 := by
    intro i hi
    rcases hent i hi with h | h
    · omega
    · exact h.2.1
  obtain ⟨h1, h2, h3, h4⟩ := kill_process_spec mem p ht.1 hlt
  refine ⟨h1, h2, h3, h4, ?_⟩
  apply h4 (64 + p) (by omega) (Or.inl (by omega))
  intro i hi _
  have := hlt i hi
  omega

theorem kill_process_postcondition_witness :
    kill_process (new_process initialize_mem 0 2).1 0 2 = 0 ∧
    kill_process (new_process initialize_mem 0 2).1 0 (64 + 0) =
      (new_process initialize_mem 0 2).1 (64 + 0) :=
  ⟨(kill_process_postcondition (new_process initialize_mem 0 2).1 0 (by decide)
      (by decide) (by decide)).2.1 0 (by decide) (by decide),
    (kill_process_postcondition (new_process initialize_mem 0 2).1 0 (by decide)
      (by decide) (by decide)).2.2.2.2⟩

/-! ## Translation and addresses: claims C14, C17, C18, C20 -/

/-- C14: for `p < 64` and `a < 65536` whose page-table index
`mem[64 + p]*256 + (a >> 8)` lies inside the arena, `get_phys_addr(p, a)` is
`e*256 + (a mod 256)` with `e` the entry at that index; when `e = 0` the result
is `a mod 256`, an address inside page 0.  The function returns a plain
address in every case: it has no error result.  Both indices it reads lie
inside the arena. -/
theorem get_phys_addr_formula (mem : Mem) (p a : Nat) (hp : p < 64) (ha : a < 65536)
    (hidx : mem (64 + p) * 256 + (a >>> 8) < MEM_SIZE) :
    get_phys_addr mem p a = mem (mem (64 + p) * 256 + (a >>> 8)) * 256 + a % 256 ∧
    (mem (mem (64 + p) * 256 + (a >>> 8)) = 0 →
      get_phys_addr mem p a = a % 256 ∧ get_phys_addr mem p a < PAGE_SIZE) ∧
    p + PAGE_COUNT < MEM_SIZE ∧
    get_address (get_page_table mem p) (a >>> 8) < MEM_SIZE := by
  have hvp : a >>> 8 < 256 := by rw [shr8_eq]; omega
  have hphys := get_phys_addr_eq mem p a ha
  refine ⟨hphys, ?_, by unfold PAGE_COUNT MEM_SIZE; omega, ?_⟩
  · intro h0
    rw [hphys, h0]
    unfold PAGE_SIZE
    omega
  · rw [get_address_eq _ _ hvp]
    simp only [get_page_table, PAGE_COUNT, Nat.add_comm p 64]
    exact hidx

theorem get_phys_addr_formula_witness :
    get_phys_addr (new_process initialize_mem 0 2).1 0 700 =
      (new_process initialize_mem 0 2).1
        ((new_process initialize_mem 0 2).1 (64 + 0) * 256 + (700 >>> 8)) * 256 + 700 % 256 :=
  (get_phys_addr_formula (new_process initialize_mem 0 2).1 0 700 (by decide) (by decide)
    (by decide)).1

/-- C17: for `page < 64` and `offset < 256`, `get_address(page, offset)` is
`page*256 + offset`, lies below `MEM_SIZE`, and decomposes uniquely (shifting
right by 8 gives the page, masking with 255 the offset), so `get_address` is
injective on that domain; with an offset of 256 or more the result can be an
address of a different page. -/
theorem get_address_synthesis (page offset : Nat) (hp : page < 64) (ho : offset < 256) :
    get_address page offset = page * 256 + offset ∧
    get_address page offset < MEM_SIZE ∧
    get_address page offset >>> 8 = page ∧
    get_address page offset &&& 255 = offset ∧
    (∀ page' offset', page' < 64 → offset' < 256 →
      get_address page' offset' = get_address page offset →
      page' = page ∧ offset' = offset) ∧
    (∃ pg off pg' off', pg < 64 ∧ 256 ≤ off ∧ pg' < 64 ∧ off' < 256 ∧ pg' ≠ pg ∧
      get_address pg off = get_address pg' off') := by
  have h := get_address_eq page offset ho
  refine ⟨h, by rw [h]; unfold MEM_SIZE; omega, by rw [h, shr8_eq]; omega,
    by rw [h, and255_eq]; omega, ?_, ⟨0, 256, 1, 0, by decide⟩⟩
  intro page' offset' _ ho' heq
  rw [h, get_address_eq page' offset' ho'] at heq
  omega

theorem get_address_synthesis_witness :
    get_address 3 5 = 3 * 256 + 5 ∧ get_address 3 5 < MEM_SIZE :=
  ⟨(get_address_synthesis 3 5 (by decide) (by decide)).1,
    (get_address_synthesis 3 5 (by decide) (by decide)).2.1⟩

/-- C18: frame of load and store.  When the translated address lies inside the
arena, `store_value(p, a, v)` sets the byte at `get_phys_addr(p, a)` (computed
in the pre-state) to `v mod 256`, every other byte is unchanged, so any byte
that changed is that arena byte; `load_value(p, a)` leaves the arena as it is.
`get_phys_addr` and `get_page_table` only read: they return a number and no
arena. -/
theorem store_load_frame (mem : Mem) (p a : Nat) (v : Int)
    (hin : get_phys_addr mem p a < MEM_SIZE) :
    (store_value mem p a v).1 (get_phys_addr mem p a) = (v % 256).toNat ∧
    (∀ j, j ≠ get_phys_addr mem p a → (store_value mem p a v).1 j = mem j) ∧
    (∀ j, (store_value mem p a v).1 j ≠ mem j →
      j = get_phys_addr mem p a ∧ j < MEM_SIZE) ∧
    (exec mem (Cmd.sb p a v)).1 = (store_value mem p a v).1 ∧
    (exec mem (Cmd.lb p a)).1 = mem := by
  have hother : ∀ j, j ≠ get_phys_addr mem p a → (store_value mem p a v).1 j = mem j := by
    intro j hj
    simp only [store_value]
    exact write_other _ _ _ _ hj
  refine ⟨by simp only [store_value, to_uchar, write_same], hother, ?_, rfl, rfl⟩
  intro j hj
  have hji : j = get_phys_addr mem p a := by
    by_contra hne
    exact hj (hother j hne)
  exact ⟨hji, hji ▸ hin⟩

theorem store_load_frame_witness :
    get_phys_addr (new_process initialize_mem 0 2).1 0 0 < MEM_SIZE ∧
    (store_value (new_process initialize_mem 0 2).1 0 0 300).1
      (get_phys_addr (new_process initialize_mem 0 2).1 0 0) = ((300 : Int) % 256).toNat :=
  ⟨by decide, (store_load_frame (new_process initialize_mem 0 2).1 0 0 300 (by decide)).1⟩

/-- C20: in-bounds translation.  For `p < 64`, `a < 65536`, a directory byte
`t = mem[64 + p] < 64` and an entry `e = mem[t*256 + (a >> 8)] < 64`, the two
arena indices read by `get_phys_addr(p, a)` and the address it returns are
below `MEM_SIZE`, so `store_value` and `load_value` stay inside the arena.
With an entry of 64 or more the address leaves the arena: after
`wild_entry_cmds` entry 0 of process 2 is 200 and `get_phys_addr(2, 0)` is
51200. -/
theorem get_phys_addr_in_bounds (mem : Mem) (p a : Nat) (hp : p < 64) (ha : a < 65536)
    (ht : mem (64 + p) < 64) (he : mem (mem (64 + p) * 256 + (a >>> 8)) < 64) :
    p + PAGE_COUNT < MEM_SIZE ∧
    get_address (get_page_table mem p) (a >>> 8) < MEM_SIZE ∧
    get_phys_addr mem p a < MEM_SIZE ∧
    (64 ≤ wild_entry_mem (wild_entry_mem (64 + 2) * 256 + (0 >>> 8)) ∧
      wild_entry_mem (wild_entry_mem (64 + 2) * 256 + (0 >>> 8)) < 256 ∧
      MEM_SIZE ≤ get_phys_addr wild_entry_mem 2 0) := by
  have hvp : a >>> 8 < 256 := by rw [shr8_eq]; omega
  refine ⟨by unfold PAGE_COUNT MEM_SIZE; omega, ?_, ?_, by decide!, by decide!, by decide!⟩
  · rw [get_address_eq _ _ hvp]
    simp only [get_page_table, PAGE_COUNT, Nat.add_comm p 64]
    unfold MEM_SIZE
    omega
  · rw [get_phys_addr_eq mem p a ha]
    unfold MEM_SIZE
    omega

theorem get_phys_addr_in_bounds_witness :
    get_phys_addr (new_process initialize_mem 0 2).1 0 300 < MEM_SIZE :=
  (get_phys_addr_in_bounds (new_process initialize_mem 0 2).1 0 300 (by decide)
    (by decide) (by decide) (by decide)).2.2.1

/-! ## The page-table report: claim C16 -/

theorem print_page_table_loop_eq (mem : Mem) (t : Nat) :
    ∀ (k i : Nat), i + k ≤ 256 →
      print_page_table_loop mem t i k =
        page_table_lines mem t ((List.range' i k).filter (fun j => mem (t * 256 + j) ≠ 0)) := by
  intro k
  induction k with
  | zero => intro i _; rfl
  | succ k ih =>
    intro i hik
    have hi : i < 256 := by omega
    rw [List.range'_succ, List.filter_cons]
    simp only [print_page_table_loop, get_address_eq t i hi]
    rw [ih (i + 1) (by omega)]
    by_cases hz : mem (t * 256 + i) = 0
    · simp [hz]
    · simp [hz, page_table_lines]

/-- C16: for `p < 64` with page table `t = mem[64 + p] < 64`,
`print_page_table(p)` prints its header line and then, in ascending order of
virtual page, one line for each pair `(i, mem[t*256 + i])` with `i < 64` and a
nonzero entry, and nothing else: the text does not depend on the entries of
index 64..255.  Every index it reads is inside the arena and the arena is not
modified. -/
theorem print_page_table_listing (mem : Mem) (p : Nat) (hp : p < 64)
    (ht : mem (64 + p) < 64) :
    print_page_table mem p =
      "--- PROCESS " ++ toString p ++ " PAGE TABLE ---\n" ++
        page_table_lines mem (mem (64 + p))
          ((List.range 64).filter (fun i => mem (mem (64 + p) * 256 + i) ≠ 0)) ∧
    (∀ mem2 : Mem, mem2 (64 + p) = mem (64 + p) →
      (∀ i, i < 64 → mem2 (mem (64 + p) * 256 + i) = mem (mem (64 + p) * 256 + i)) →
      print_page_table mem2 p = print_page_table mem p) ∧
    (∀ i, i < 64 → get_address (get_page_table mem p) i < MEM_SIZE) ∧
    p + PAGE_COUNT < MEM_SIZE ∧
    (exec mem (Cmd.ppt p)).1 = mem := by
  have hform : ∀ m : Mem, print_page_table m p =
      "--- PROCESS " ++ toString p ++ " PAGE TABLE ---\n" ++
        page_table_lines m (m (64 + p))
          ((List.range 64).filter (fun i => m (m (64 + p) * 256 + i) ≠ 0)) := by
    intro m
    simp only [print_page_table, get_page_table, PAGE_COUNT, Nat.add_comm p 64]
    rw [print_page_table_loop_eq m _ 64 0 (by omega), List.range_eq_range']
  have hlines : ∀ (m2 : Mem) (l : List Nat), (∀ i ∈ l, i < 64) →
      (∀ i, i < 64 → m2 (mem (64 + p) * 256 + i) = mem (mem (64 + p) * 256 + i)) →
      page_table_lines m2 (mem (64 + p)) l = page_table_lines mem (mem (64 + p)) l := by
    intro m2 l
    induction l with
    | nil => intro _ _; rfl
    | cons i rest ih =>
      intro hl hag
      simp only [page_table_lines]
      rw [hag i (hl i (List.mem_cons_self _ _)),
        ih (fun j hj => hl j (List.mem_cons_of_mem _ hj)) hag]
  refine ⟨hform mem, ?_, ?_, by unfold PAGE_COUNT MEM_SIZE; omega, rfl⟩
  · intro mem2 hdir hag
    rw [hform mem2, hform mem, hdir]
    have hfil : (List.range 64).filter (fun i => mem2 (mem (64 + p) * 256 + i) ≠ 0) =
        (List.range 64).filter (fun i => mem (mem (64 + p) * 256 + i) ≠ 0) := by
      apply List.filter_congr
      intro i hi
      rw [hag i (List.mem_range.mp hi)]
    rw [hfil, hlines mem2 _ (fun i hi => List.mem_range.mp (List.mem_of_mem_filter hi)) hag]
  · intro i hi
    rw [get_address_eq _ _ (by omega)]
    simp only [get_page_table, PAGE_COUNT, Nat.add_comm p 64]
    unfold MEM_SIZE
    omega

theorem print_page_table_listing_witness :
    print_page_table (new_process initialize_mem 0 2).1 0 =
      "--- PROCESS " ++ toString 0 ++ " PAGE TABLE ---\n" ++
        page_table_lines (new_process initialize_mem 0 2).1
          ((new_process initialize_mem 0 2).1 (64 + 0))
          ((List.range 64).filter (fun i => (new_process initialize_mem 0 2).1
            ((new_process initialize_mem 0 2).1 (64 + 0) * 256 + i) ≠ 0)) :=
  (print_page_table_listing (new_process initialize_mem 0 2).1 0 (by decide) (by decide)).1

/-! ## The out-of-memory notice: claim C15 -/

/-- C15 at a failing input.  `new_process(0, 63)` on a fresh arena obtains its
page table (the directory byte becomes 1) and 62 data pages, and fails on the
63rd data page; `new_process(0, 63)` on the exhausted arena fails on the page
table itself.  The two notices are the same text, `OOM: proc 0: page table`:
the data-page failure is reported as a page-table failure. -/
theorem oom_notice_same_for_both_steps :
    (new_process initialize_mem 0 63).1 (64 + 0) = 1 ∧
    (new_process initialize_mem 0 63).2 = "OOM: proc 0: page table\n" ∧
    (get_page exhausted_mem).1 = 0xff ∧
    (new_process exhausted_mem 0 63).2 = "OOM: proc 0: page table\n" ∧
    (new_process initialize_mem 0 63).2 = (new_process exhausted_mem 0 63).2 := by
  refine ⟨by decide!, by decide!, by decide!, by decide!, by decide!⟩

/-! ## Recycled data pages: claims C11, C19 -/

/-- C11 at a failing input.  `shared_page_cmds` is a valid command line after
which processes 1, 2 and 3 are live, process 2 has page table 2 and process 3
has page table 4, and physical page 5 is the value both of entry 1 of process
2's table and of entry 0 of process 3's table. -/
theorem page_shared_by_two_processes :
    cmds_valid initialize_mem [] shared_page_cmds = true ∧
    live_run [] shared_page_cmds = [3, 2, 1] ∧
    shared_page_mem (64 + 2) = 2 ∧
    shared_page_mem (64 + 3) = 4 ∧
    shared_page_mem (2 * 256 + 1) = 5 ∧
    shared_page_mem (4 * 256 + 0) = 5 := by
  refine ⟨by decide!, by decide, by decide!, by decide!, by decide!, by decide!⟩

/-- C19 at a failing input.  `stale_cmds` is a valid command line without `lb`;
in the arena it leaves, `new_process(2, 0)` succeeds (no notice) with page 2 as
page table, and entry 0 of that table, of index `0 >= n = 0`, is 1 and not 0. -/
theorem fresh_page_table_not_clean :
    cmds_valid initialize_mem [] stale_cmds = true ∧
    2 ∉ live_run [] stale_cmds ∧
    0 + 1 ≤ (free_pages stale_mem).length ∧
    (new_process stale_mem 2 0).2 = "" ∧
    (new_process stale_mem 2 0).1 (64 + 2) = 2 ∧
    (new_process stale_mem 2 0).1 (2 * 256 + 0) ≠ 0 := by
  refine ⟨by decide!, by decide, by decide!, by decide!, by decide!, by decide!⟩

/-! ## The directory: claim C12 -/

theorem dir_inv_exec (mem : Mem) (live : List Nat) (c : Cmd) (hinv : dir_inv mem live)
    (hv : cmd_valid mem live c = true) (hs : small_store c = true) :
    dir_inv (exec mem c).1 (live_after live c) := by
  obtain ⟨hJ, hD⟩ := hinv
  cases c with
  | np p n =>
    simp only [cmd_valid, Bool.and_eq_true, decide_eq_true_eq, Bool.not_eq_true',
      List.contains_eq_any_beq, List.any_eq_false, beq_iff_eq] at hv
    obtain ⟨⟨hp, hnl⟩, hfree⟩ := hv
    rcases hfs : free_pages mem with _ | ⟨t, rest⟩
    · rw [hfs] at hfree
      simp at hfree
    · obtain ⟨-, -, h3, h4, h5, -⟩ := new_process_cons mem p n t rest hp hfs
      rw [hfs] at hfree
      simp only [List.length_cons] at hfree
      have hmin : min n rest.length = n := by omega
      rw [hmin] at h4 h5
      have ht : 1 ≤ t ∧ t < 64 ∧ mem t = 0 := by
        rw [← mem_free_pages, hfs]; simp
      simp only [exec, live_after]
      refine ⟨?_, ?_⟩
      · intro j hj
        by_cases hex : ∃ d, d < n ∧ j = t * 256 + d
        · obtain ⟨d, hd, rfl⟩ := hex
          have hmem : (new_process mem p n).1 (t * 256 + d) ∈ free_pages mem := by
            rw [hfs]
            exact List.mem_cons_of_mem _ (List.mem_iff_getElem?.mpr ⟨d, h4 d hd⟩)
          exact ((mem_free_pages mem _).mp hmem).2.1
        · rw [h5 j (by omega) (by omega) (fun d hd e => hex ⟨d, hd, e⟩)]
          exact hJ j hj
      · intro q hq
        rw [List.mem_cons] at hq
        rcases hq with hq | hq
        · subst hq
          rw [h3]
          exact ⟨hp, ht.1, ht.2.1⟩
        · have hqp : q ≠ p := fun e => hnl q hq e.symm
          have hq64 := (hD q hq).1
          rw [h5 (64 + q) (by omega) (by omega) (by intro d _; omega)]
          exact hD q hq
  | pfm => exact ⟨hJ, hD⟩
  | ppt p => exact ⟨hJ, hD⟩
  | kp p =>
    simp only [cmd_valid, List.contains_eq_any_beq, List.any_eq_true, beq_iff_eq] at hv
    obtain ⟨x, hx, rfl⟩ := hv
    obtain ⟨hp, ht1, ht2⟩ := hD p hx
    have hent : ∀ i, i < 256 → mem (mem (64 + p) * 256 + i) < 64 :=
      fun i _ => hJ _ (by omega)
    obtain ⟨h1, h2, h3, h4⟩ := kill_process_spec mem p ht1 hent
    have hcases : ∀ j, kill_process mem p j = 0 ∨ kill_process mem p j = mem j := by
      intro j
      by_cases hjt : j = mem (64 + p)
      · left; rw [hjt]; exact h3
      · by_cases hrange : j < mem (64 + p) * 256 ∨ mem (64 + p) * 256 + 256 ≤ j
        · by_cases hex : ∃ i, i < 256 ∧ mem (mem (64 + p) * 256 + i) ≠ 0 ∧
              mem (mem (64 + p) * 256 + i) = j
          · obtain ⟨i, hi, hne, rfl⟩ := hex
            left; exact h2 i hi hne
          · right
            exact h4 j hjt hrange (fun i hi hne e => hex ⟨i, hi, hne, e⟩)
        · left
          have : j = mem (64 + p) * 256 + (j - mem (64 + p) * 256) := by omega
          rw [this]
          exact h1 _ (by omega)
    simp only [exec, live_after]
    refine ⟨?_, ?_⟩
    · intro j hj
      rcases hcases j with h | h
      · omega
      · rw [h]; exact hJ j hj
    · intro q hq
      have hq' : q ∈ live := List.mem_of_mem_filter hq
      have hq64 := (hD q hq').1
      rw [h4 (64 + q) (by omega) (Or.inl (by omega)) (by
        intro i hi _
        have := hent i hi
        omega)]
      exact hD q hq'
  | sb p a v =>
    simp only [cmd_valid, Bool.and_eq_true, decide_eq_true_eq,
      List.contains_eq_any_beq, List.any_eq_true, beq_iff_eq] at hv
    obtain ⟨⟨⟨x, hx, rfl⟩, ha⟩, hmapped⟩ := hv
    simp only [small_store, decide_eq_true_eq] at hs
    obtain ⟨hp, ht1, ht2⟩ := hD p hx
    have hvp : a >>> 8 < 256 := by rw [shr8_eq]; omega
    have hphys := get_phys_addr_eq mem p a ha
    simp only [get_page_table, PAGE_COUNT, Nat.add_comm p 64, get_address_eq _ _ hvp]
      at hmapped
    have hge : 256 ≤ get_phys_addr mem p a := by
      rw [hphys]
      omega
    simp only [exec, live_after, store_value]
    refine ⟨?_, ?_⟩
    · intro j hj
      by_cases hjp : j = get_phys_addr mem p a
      · rw [hjp, write_same]; exact hs
      · rw [write_other _ _ _ _ hjp]; exact hJ j hj
    · intro q hq
      have hq64 := (hD q hq).1
      rw [write_other _ _ _ _ (by omega)]
      exact hD q hq
  | lb p a => exact ⟨hJ, hD⟩

theorem dir_inv_run : ∀ (cmds : List Cmd) (mem : Mem) (live : List Nat),
    dir_inv mem live → cmds_valid mem live cmds = true → cmds.all small_store = true →
    dir_inv (run mem cmds).1 (live_run live cmds) := by
  intro cmds
  induction cmds with
  | nil => intro mem live h _ _; exact h
  | cons c cs ih =>
    intro mem live hinv hv hs
    simp only [cmds_valid, Bool.and_eq_true] at hv
    simp only [List.all_cons, Bool.and_eq_true] at hs
    simp only [run, live_run]
    exact ih _ _ (dir_inv_exec mem live c hinv hv.1 hs.1) hv.2 hs.2

theorem dir_inv_initialize_mem : dir_inv initialize_mem [] := by
  refine ⟨?_, ?_⟩
  · intro j hj
    rw [initialize_mem, write_other _ _ _ _ (by omega)]
    omega
  · intro q hq
    simp at hq

/-- C12, as stated, fails: after the valid command line `np 0 0`, `kp 0`
process 0 has been killed, yet its directory byte `mem[64]` is not 0. -/
theorem directory_liveness_counterexample :
    cmds_valid initialize_mem [] [Cmd.np 0 0, Cmd.kp 0] = true ∧
    ¬ ((run initialize_mem [Cmd.np 0 0, Cmd.kp 0]).1 (64 + 0) ≠ 0 ↔
      0 ∈ live_run [] [Cmd.np 0 0, Cmd.kp 0]) := by
  refine ⟨by decide!, by decide!⟩

/-- C12 (amended): in every arena state reached from `initialize_mem` by valid
commands (`np` of an id below 64 that is not live, with enough free pages; `kp`
of a live id; `sb`/`lb` of a live process at a mapped virtual address, each
store writing a byte below 64; the two reports), the directory byte
`mem[64 + p]` of every live process `p` is nonzero, a page number in `[1, 64)`;
and `kill_process(p)` leaves that byte as it is, so the directory byte of a
process that has been killed is still nonzero. -/
theorem directory_nonzero_while_live (cmds : List Cmd)
    (hv : cmds_valid initialize_mem [] cmds = true)
    (hs : cmds.all small_store = true) :
    ∀ p, p ∈ live_run [] cmds →
      p < 64 ∧
      (run initialize_mem cmds).1 (64 + p) ≠ 0 ∧
      (1 ≤ (run initialize_mem cmds).1 (64 + p) ∧ (run initialize_mem cmds).1 (64 + p) < 64) ∧
      kill_process (run initialize_mem cmds).1 p (64 + p) =
        (run initialize_mem cmds).1 (64 + p) := by
  intro p hp
  obtain ⟨hJ, hD⟩ := dir_inv_run cmds initialize_mem [] dir_inv_initialize_mem hv hs
  obtain ⟨hp64, ht1, ht2⟩ := hD p hp
  have hent : ∀ i, i < 256 →
      (run initialize_mem cmds).1 ((run initialize_mem cmds).1 (64 + p) * 256 + i) < 64 :=
    fun i _ => hJ _ (by omega)
  obtain ⟨-, -, -, h4⟩ := kill_process_spec (run initialize_mem cmds).1 p ht1 hent
  refine ⟨hp64, by omega, ⟨ht1, ht2⟩, ?_⟩
  apply h4 (64 + p) (by omega) (Or.inl (by omega))
  intro i hi _
  have := hent i hi
  omega

theorem directory_nonzero_while_live_witness :
    cmds_valid initialize_mem [] [Cmd.np 0 2, Cmd.sb 0 0 42, Cmd.np 5 1] = true ∧
    [Cmd.np 0 2, Cmd.sb 0 0 42, Cmd.np 5 1].all small_store = true ∧
    (run initialize_mem [Cmd.np 0 2, Cmd.sb 0 0 42, Cmd.np 5 1]).1 (64 + 5) ≠ 0 :=
  ⟨by decide!, by decide,
    (directory_nonzero_while_live [Cmd.np 0 2, Cmd.sb 0 0 42, Cmd.np 5 1] (by decide!)
      (by decide) 5 (by decide)).2.1⟩

end Ptsim
